import Mathlib

/-!
Shallow embedding, in Lean 4, of the EDL-handling core of a video
auto-editing backend: the prompt builder's target-duration computation,
the EDL validator, the EDL converter, the frame data compressor, the LLM
client's JSON repair, the SRT caption generator, and the upload step of
the rendering pipeline.

Timestamps, durations and percentages are modelled as exact rationals;
Python's `round(x, 2)` is modelled as rounding to the nearest multiple of
1/100 (ties away from the lower value, as in Mathlib's `round`).  Python
dictionaries with optional keys are modelled as structures with `Option`
fields (`none` = key absent).  Error-message strings produced by the
validator are modelled as constructors of an inductive type `VErr`; the
`isWarning` predicate mirrors the substring test `"Warning" in e` on the
corresponding message texts.
-/

namespace VideoEdit

/-- Python's `round(x, 2)`: round to the nearest multiple of 1/100. -/
def round2q (q : ℚ) : ℚ := ((round (q * 100) : ℤ) : ℚ) / 100

/-! ### EDL converter (`edl_converter.py`, `EDLConverter`)

An LLM EDL segment is a dict with keys `start`, `end`, optional `type`
(read as `segment.get("type", "keep")`) and optional `video_id`.  The
fields `reason`, `transition_type`, `transition_duration` are never read
by the converter, the validator's sanitizer output shape apart, and are
omitted from the model. -/

structure CSeg where
  start : ℚ
  «end» : ℚ
  type : Option String := none
  video_id : Option String := none
deriving DecidableEq

/-- `segment.get("type", "keep")`. -/
def segType (s : CSeg) : String := s.type.getD "keep"

/-- `segment.get("video_id", "")`, the sort key component. -/
def vidKey (s : CSeg) : String := s.video_id.getD ""

/-- The filtering loop of `convert_llm_edl_to_editor_format`: only
`"keep"` segments survive, rebuilt as `{start, end, type: "keep"}` with
`video_id` preserved when present. -/
def keepOnly (l : List CSeg) : List CSeg :=
  l.filterMap fun s =>
    if segType s = "keep" then
      some { start := s.start, «end» := s.«end», type := some "keep", video_id := s.video_id }
    else none

/-- `any("video_id" in seg for seg in editor_edl)`. -/
def hasVideoIds (l : List CSeg) : Bool := l.any fun s => s.video_id.isSome

/-- Sort key `(x.get("video_id", ""), x["start"])`, compared
lexicographically as Python compares tuples. -/
def leVid (a b : CSeg) : Prop :=
  vidKey a < vidKey b ∨ (vidKey a = vidKey b ∧ a.start ≤ b.start)

/-- Sort key `x["start"]` (single-video branch). -/
def leStart (a b : CSeg) : Prop := a.start ≤ b.start

instance : DecidableRel leVid := fun a b => by
  unfold leVid; infer_instance

instance : DecidableRel leStart := fun a b => by
  unfold leStart; infer_instance

instance : IsTotal CSeg leVid :=
  ⟨fun a b => by
    unfold leVid
    rcases lt_trichotomy (vidKey a) (vidKey b) with h | h | h
    · exact Or.inl (Or.inl h)
    · rcases le_total a.start b.start with h2 | h2
      · exact Or.inl (Or.inr ⟨h, h2⟩)
      · exact Or.inr (Or.inr ⟨h.symm, h2⟩)
    · exact Or.inr (Or.inl h)⟩

instance : IsTrans CSeg leVid :=
  ⟨fun a b c hab hbc => by
    unfold leVid at *
    rcases hab with h1 | ⟨h1, h1'⟩ <;> rcases hbc with h2 | ⟨h2, h2'⟩
    · exact Or.inl (lt_trans h1 h2)
    · exact Or.inl (h2 ▸ h1)
    · exact Or.inl (h1 ▸ h2)
    · exact Or.inr ⟨h1.trans h2, h1'.trans h2'⟩⟩

instance : IsTotal CSeg leStart :=
  ⟨fun a b => le_total a.start b.start⟩

instance : IsTrans CSeg leStart :=
  ⟨fun _ _ _ h1 h2 => le_trans h1 h2⟩

/-- The merge loop of `convert_llm_edl_to_editor_format`, started on the
head of the sorted list.  `cur` is `merged[-1]`; a new segment is merged
into it when `last_seg.get("video_id") == segment.get("video_id")` and
`last_seg["end"] >= segment["start"]`, extending the end to the max. -/
def mergeRun : CSeg → List CSeg → List CSeg
  | cur, [] => [cur]
  | cur, t :: ts =>
    if t.video_id = cur.video_id ∧ t.start ≤ cur.«end» then
      mergeRun { cur with «end» := max cur.«end» t.«end» } ts
    else
      cur :: mergeRun t ts

def mergeAdjacent : List CSeg → List CSeg
  | [] => []
  | s :: rest => mergeRun s rest

/-- The negation of the merge condition: what holds between any two
adjacent segments of the merged output. -/
def mergedSep (a b : CSeg) : Prop := ¬ (b.video_id = a.video_id ∧ b.start ≤ a.«end»)

/-- `EDLConverter.convert_llm_edl_to_editor_format`: keep only `"keep"`
segments, sort (stably) by `(video_id, start)` when any segment carries a
`video_id` and by `start` otherwise, then merge touching or overlapping
same-source segments. -/
def convert_llm_edl_to_editor_format (llm_edl : List CSeg) : List CSeg :=
  let editor_edl := keepOnly llm_edl
  let sorted :=
    if hasVideoIds editor_edl then List.insertionSort leVid editor_edl
    else List.insertionSort leStart editor_edl
  mergeAdjacent sorted

/-- `x` is covered by a segment of `l` belonging to source `v`. -/
def covered (l : List CSeg) (v : Option String) (x : ℚ) : Prop :=
  ∃ s ∈ l, s.video_id = v ∧ s.start ≤ x ∧ x ≤ s.«end»

instance (l : List CSeg) (v : Option String) (x : ℚ) : Decidable (covered l v x) :=
  List.decidableBEx _ l

/-! ### Apply stage guard (`workers/tasks.py`, Step 2 of
`generate_and_apply_ai_edit_pipeline`)

The pipeline converts the plan's EDL and raises
`ValueError("No valid segments in edit plan. EDL is empty after conversion.")`
when the conversion result is empty, before Step 3 (download) and Step 4
(render) run.  The outcome is modelled so that a renderer invocation can
only appear in the `rendered` constructor. -/

inductive ApplyOutcome where
  | failed (msg : String)
  | rendered (editor_edl : List CSeg)
deriving DecidableEq

def applyStageGuard (plan_edl : List CSeg) : ApplyOutcome :=
  let editor_edl := convert_llm_edl_to_editor_format plan_edl
  if editor_edl.isEmpty then
    ApplyOutcome.failed "No valid segments in edit plan. EDL is empty after conversion."
  else
    ApplyOutcome.rendered editor_edl

/-! ### EDL validator (`edl_validator.py`, `EDLValidator.validate_edl`)

A raw LLM segment may miss `start` or `end`.  The validator sorts by
`x.get("start", 0)`, clamps, drops, rounds, and collects error messages.
Messages are modelled as `VErr` tags; note that the messages produced on
the `continue` paths (missing field, start ≥ end, too short) are appended
to the local `segment_errors` list but never reach the returned `errors`
list, because `continue` skips the `errors.extend(segment_errors)` at the
end of the iteration — the model mirrors that. -/

structure RawSeg where
  start : Option ℚ := none
  «end» : Option ℚ := none
  type : Option String := none
deriving DecidableEq

/-- A sanitized segment `{start: round(start, 2), end: round(end, 2),
type: segment.get("type", "keep")}` (the `reason`/transition fields are
not modelled). -/
structure Seg where
  start : ℚ
  «end» : ℚ
  type : String
deriving DecidableEq

inductive VErr where
  | emptyEDL
  | negStart (i : ℕ)
  | endExceeds (i : ℕ)
  | suspiciouslyLong (i : ℕ)
  | overlapWarning (i : ℕ)
  | coverageWarning
deriving DecidableEq

/-- `"Warning" in e` on the corresponding message text: only the overlap
and coverage messages start with `"Warning:"`; in particular the
"suspiciously long" message does not contain `"Warning"`. -/
def isWarning : VErr → Bool
  | VErr.overlapWarning _ => true
  | VErr.coverageWarning => true
  | _ => false

/-- Sort key `x.get("start", 0)`. -/
def leRaw (a b : RawSeg) : Prop := a.start.getD 0 ≤ b.start.getD 0

instance : DecidableRel leRaw := fun a b => by
  unfold leRaw; infer_instance

instance : IsTotal RawSeg leRaw :=
  ⟨fun a b => le_total (a.start.getD 0) (b.start.getD 0)⟩

instance : IsTrans RawSeg leRaw :=
  ⟨fun _ _ _ h1 h2 => le_trans h1 h2⟩

/-- One iteration of the `validate_edl` loop: drop the segment when a
field is missing (`continue`), clamp a negative start to 0 and an
over-duration end to `D`, drop when `start >= end` or the duration is
below 0.1, and otherwise emit the segment with both timestamps rounded
to 2 decimals and `type = segment.get("type", "keep")`. -/
def sanitizeOne (D : ℚ) (r : RawSeg) : Option Seg :=
  match r.start, r.«end» with
  | some s0, some e0 =>
    let s1 := if s0 < 0 then 0 else s0
    let e1 := if D < e0 then D else e0
    if e1 ≤ s1 then none
    else if e1 - s1 < 1 / 10 then none
    else some { start := round2q s1, «end» := round2q e1, type := r.type.getD "keep" }
  | _, _ => none

/-- The error messages of one iteration that actually reach the returned
`errors` list: clamp messages and the "suspiciously long" message, and
only when the segment is kept (a `continue` loses the collected
messages). -/
def segErrsOne (D : ℚ) (i : ℕ) (r : RawSeg) : List VErr :=
  match r.start, r.«end» with
  | some s0, some e0 =>
    let s1 := if s0 < 0 then 0 else s0
    let e1 := if D < e0 then D else e0
    if e1 ≤ s1 then []
    else if e1 - s1 < 1 / 10 then []
    else
      (if s0 < 0 then [VErr.negStart i] else []) ++
        (if D < e0 then [VErr.endExceeds i] else []) ++
          (if D * (9 / 10) < e1 - s1 then [VErr.suspiciouslyLong i] else [])
  | _, _ => []

/-- The per-segment loop of `validate_edl`, with `i` the enumeration
index.  Returns `(errors, sanitized)`. -/
def sanitizeSegs (D : ℚ) : ℕ → List RawSeg → List VErr × List Seg
  | _, [] => ([], [])
  | i, r :: rs =>
    let rest := sanitizeSegs D (i + 1) rs
    match sanitizeOne D r with
    | some s => (segErrsOne D i r ++ rest.1, s :: rest.2)
    | none => rest

/-- `EDLValidator._check_overlaps` over adjacent pairs of the sanitized
list: warn when both are non-transitions and
`current["end"] > next_seg["start"] + tolerance`. -/
def checkOverlaps (tol : ℚ) : ℕ → List Seg → List VErr
  | _, [] => []
  | _, [_] => []
  | i, a :: b :: rest =>
    (if a.type ≠ "transition" ∧ b.type ≠ "transition" ∧ b.start + tol < a.«end» then
      [VErr.overlapWarning i]
    else []) ++ checkOverlaps tol (i + 1) (b :: rest)

/-- Sum of `end - start` over `"keep"` segments. -/
def keepTotal (l : List Seg) : ℚ :=
  (l.map fun s => if s.type = "keep" then s.«end» - s.start else 0).sum

/-- `EDLValidator._calculate_coverage`. -/
def calculateCoverage (D : ℚ) (l : List Seg) : ℚ :=
  if l = [] then 0 else if 0 < D then keepTotal l / D else 0

/-- `EDLValidator.validate_edl` for a list input: returns
`(is_valid, errors, sanitized)`.  `tol` is the constructor's `tolerance`
(default 0.1). -/
def validate_edl (D tol : ℚ) (edl : List RawSeg) : Bool × List VErr × List Seg :=
  if edl = [] then (false, [VErr.emptyEDL], [])
  else
    let sorted_edl := List.insertionSort leRaw edl
    let se := sanitizeSegs D 0 sorted_edl
    let overlapErrs := checkOverlaps tol 0 se.2
    let covErrs := if calculateCoverage D se.2 < 1 / 2 then [VErr.coverageWarning] else []
    let errors := se.1 ++ overlapErrs ++ covErrs
    (errors.isEmpty || errors.all isWarning, errors, se.2)

/-! ### Data compressor (`data_compressor.py`, `DataCompressor`)

A frame dict carries its caption under `llm_response` or `description`
(modelled as one `description` field, truthy = non-empty) and its
timestamp under `timestamp_seconds` (the `frame_timestamp` fallback key
is not modelled: frames here always carry `timestamp_seconds`).  Only the
`temporal_sampling` strategy (the default) is modelled. -/

structure Frame where
  timestamp_seconds : ℚ
  description : String
  status : Option String := none
deriving DecidableEq

/-- The filter of `compress_frames`: a caption is present and status is
absent or `"completed"`. -/
def validFrames (frames : List Frame) : List Frame :=
  frames.filter fun f =>
    decide (f.description ≠ "" ∧ (f.status = none ∨ f.status = some "completed"))

def leTs (a b : Frame) : Prop := a.timestamp_seconds ≤ b.timestamp_seconds

instance : DecidableRel leTs := fun a b => by
  unfold leTs; infer_instance

instance : IsTotal Frame leTs :=
  ⟨fun a b => le_total a.timestamp_seconds b.timestamp_seconds⟩

instance : IsTrans Frame leTs :=
  ⟨fun _ _ _ h1 h2 => le_trans h1 h2⟩

/-- Deduplication by `round(timestamp, 2)` keeping the first occurrence
(`seen_timestamps` set). -/
def dedupByTimestamp : List Frame → List ℚ → List Frame
  | [], _ => []
  | f :: fs, seen =>
    let key := round2q f.timestamp_seconds
    if key ∈ seen then dedupByTimestamp fs seen
    else f :: dedupByTimestamp fs (key :: seen)

/-- The middle-sampling indices `idx = int(1 + i * step)` for
`i = 1 .. target_count - 2`, with `step = (n - 2) / (target_count - 2)`
computed in exact arithmetic. -/
def midIndices (n target : ℕ) : List ℕ :=
  (List.range' 1 (target - 2)).map fun (i : ℕ) =>
    (⌊(1 : ℚ) + (i : ℚ) * (((n : ℚ) - 2) / ((target : ℚ) - 2))⌋).toNat

/-- The middle frames selected by `_temporal_sampling`: only indices
strictly between the first and the last frame are taken, and only when
both the frame count and the target exceed 2. -/
def middleFrames (maxFrames : ℕ) (sorted : List Frame) : List Frame :=
  if 2 < sorted.length ∧ 2 < min maxFrames sorted.length then
    (midIndices sorted.length (min maxFrames sorted.length)).filterMap fun idx =>
      if idx < sorted.length - 1 then sorted.get? idx else none
  else []

/-- The selection order of `_temporal_sampling`: first frame, then last
frame (when more than one), then the middle samples. -/
def selectedFrames (maxFrames : ℕ) (sorted : List Frame) : List Frame :=
  sorted.take 1 ++ (if 1 < sorted.length then sorted.getLast?.toList else []) ++
    middleFrames maxFrames sorted

/-- `DataCompressor._temporal_sampling`: sort by timestamp, always select
the first and (when more than one) the last frame, sample the middle
evenly with `idx = int(1 + i * step)`, deduplicate by rounded timestamp,
and return sorted by timestamp. -/
def temporalSampling (maxFrames : ℕ) (frames : List Frame) : List Frame :=
  let sorted := List.insertionSort leTs frames
  List.insertionSort leTs (dedupByTimestamp (selectedFrames maxFrames sorted) [])

/-- `DataCompressor.compress_frames` with strategy `temporal_sampling`
(the `video_duration` argument is unused by the sampling code and
omitted). -/
def compress_frames (maxFrames : ℕ) (frames : List Frame) : List Frame :=
  let valid := validFrames frames
  if valid.length ≤ maxFrames then valid
  else temporalSampling maxFrames valid

/-! ### Prompt builder (`prompt_builder.py`, `_build_user_prompt`)

The story intent carries `desired_length_percentage` or the legacy
`desired_length`; the task description of the user prompt states
`target_duration = video_duration * (desired_length_percentage / 100)`
after clamping the percentage to [25, 100].  No minimum-duration rule
appears anywhere in the builder. -/

structure StoryPrompt where
  desired_length_percentage : Option ℚ := none
  desired_length : Option String := none
deriving DecidableEq

/-- Percentage resolution of `_build_user_prompt`: use
`desired_length_percentage` when present, else map the legacy
`story_prompt.get("desired_length", "medium")` (`short` → 30,
`medium` → 50, `long` → 85, anything else → 50), then clamp with
`max(25, min(100, ...))`. -/
def resolve_desired_length_percentage (sp : StoryPrompt) : ℚ :=
  let pct : ℚ :=
    match sp.desired_length_percentage with
    | some p => p
    | none =>
      match sp.desired_length with
      | some dl =>
        if dl = "short" then 30 else if dl = "medium" then 50
        else if dl = "long" then 85 else 50
      | none => 50
  max 25 (min 100 pct)

/-- The target duration stated (formatted `:.1f`) throughout the task
description of the user prompt. -/
def target_duration (video_duration : ℚ) (sp : StoryPrompt) : ℚ :=
  video_duration * (resolve_desired_length_percentage sp / 100)

/-- Modelled from the spec: the minimum rule `minimum = 20 s` when
`duration > 20 s` else `0.6·duration`, which §4.7 of the spec claims the
task description uses but which does not occur in `prompt_builder.py`. -/
def specMinimumRule (D : ℚ) : ℚ := if 20 < D then 20 else (6 / 10) * D

/-- Modelled from the spec: `target = max(minimum, duration·pct/100)` as
§4.7 of the spec states it. -/
def specTargetDuration (D p : ℚ) : ℚ := max (specMinimumRule D) (D * p / 100)

/-! ### JSON repair (`llm_client.py`, `LLMClient._repair_json`) and a
JSON acceptor modelling `json.loads` success.

Brace characters are written via `Char.ofNat` (123 = opening brace,
125 = closing brace). -/

def lbrace : Char := Char.ofNat 123
def rbrace : Char := Char.ofNat 125

/-- Python regex `\s` (ASCII): space, tab, newline, carriage return,
form feed, vertical tab. -/
def isPyWs (c : Char) : Bool :=
  c == ' ' || c == '\t' || c == '\n' || c == '\r' || c == Char.ofNat 12 || c == Char.ofNat 11

/-- Split a leading run of whitespace. -/
def spanWs : List Char → List Char × List Char
  | [] => ([], [])
  | c :: cs =>
    if isPyWs c then
      let wr := spanWs cs
      (c :: wr.1, wr.2)
    else ([], c :: cs)

/-- Fix 1 of `_repair_json`: the left-to-right, non-overlapping
substitution `re.sub(r',(\s*[}\]])', r'\1', content)` — a comma followed
by optional whitespace and a closing brace or bracket is dropped.  The
fuel argument (passed as the input length) only bounds the recursion. -/
def removeTrailingCommas : ℕ → List Char → List Char
  | 0, cs => cs
  | _ + 1, [] => []
  | fuel + 1, c :: cs =>
    if c = ',' then
      match spanWs cs with
      | (w, b :: rest) =>
        if b = rbrace ∨ b = ']' then w ++ b :: removeTrailingCommas fuel rest
        else c :: removeTrailingCommas fuel cs
      | (_, []) => c :: removeTrailingCommas fuel cs
    else c :: removeTrailingCommas fuel cs

/-- Fix 2 of `_repair_json`: append the brace deficit (as
`'\n' + '}' * k`) and after it the bracket deficit (as `'\n' + ']' * k`),
all four counts taken over the comma-stripped string `r`. -/
def appendDeficits (r : List Char) : List Char :=
  let r2 :=
    if r.count rbrace < r.count lbrace then
      r ++ '\n' :: List.replicate (r.count lbrace - r.count rbrace) rbrace
    else r
  if r.count ']' < r.count '[' then
    r2 ++ '\n' :: List.replicate (r.count '[' - r.count ']') ']'
  else r2

/-- `LLMClient._repair_json`: remove trailing commas, then append the
brace/bracket deficits in that order. -/
def repair_json (content : String) : String :=
  let cs := content.toList
  String.mk (appendDeficits (removeTrailingCommas cs.length cs))

/-- JSON whitespace. -/
def skipWs : List Char → List Char
  | [] => []
  | c :: cs => if c == ' ' || c == '\t' || c == '\n' || c == '\r' then skipWs cs else c :: cs

/-- ASCII hexadecimal digit. -/
def isHexDig (c : Char) : Bool :=
  c.isDigit || ('a' ≤ c && c ≤ 'f') || ('A' ≤ c && c ≤ 'F')

/-- Body of a JSON string after the opening quote; returns the input
after the closing quote. -/
def parseStringBody : List Char → Option (List Char)
  | [] => none
  | c :: cs =>
    if c = '"' then some cs
    else if c = '\\' then
      match cs with
      | [] => none
      | e :: cs2 =>
        if e = '"' ∨ e = '\\' ∨ e = '/' ∨ e = 'b' ∨ e = 'f' ∨ e = 'n' ∨ e = 'r' ∨ e = 't' then
          parseStringBody cs2
        else if e = 'u' then
          match cs2 with
          | a :: b :: c3 :: d :: rest =>
            if isHexDig a && isHexDig b && isHexDig c3 && isHexDig d then
              parseStringBody rest
            else none
          | _ => none
        else none
    else if c.val < 32 then none
    else parseStringBody cs

/-- Split a leading run of ASCII digits. -/
def spanDigits : List Char → List Char × List Char
  | [] => ([], [])
  | c :: cs =>
    if c.isDigit then
      let dr := spanDigits cs
      (c :: dr.1, dr.2)
    else ([], c :: cs)

/-- Optional fraction part `.digits`. -/
def parseFrac : List Char → Option (List Char)
  | [] => some []
  | c :: r =>
    if c = '.' then
      match spanDigits r with
      | ([], _) => none
      | (_ :: _, r2) => some r2
    else some (c :: r)

/-- Optional exponent part `(e|E)(+|-)?digits`. -/
def parseExp : List Char → Option (List Char)
  | [] => some []
  | c :: r =>
    if c = 'e' ∨ c = 'E' then
      let r2 := match r with
        | s :: r3 => if s = '+' ∨ s = '-' then r3 else s :: r3
        | [] => []
      match spanDigits r2 with
      | ([], _) => none
      | (_ :: _, r3) => some r3
    else some (c :: r)

/-- A JSON number: `-? (0 | [1-9][0-9]*) frac? exp?`. -/
def parseNumber (cs : List Char) : Option (List Char) :=
  let cs1 := match cs with
    | c :: r => if c = '-' then r else c :: r
    | [] => []
  match cs1 with
  | [] => none
  | c :: r =>
    if c = '0' then (parseFrac r).bind parseExp
    else if c.isDigit then (parseFrac (spanDigits r).2).bind parseExp
    else none

mutual

/-- Recursive-descent acceptor for one JSON value; returns the remaining
input on success.  The fuel bounds nesting and list length. -/
def parseValue : ℕ → List Char → Option (List Char)
  | 0, _ => none
  | fuel + 1, cs =>
    match skipWs cs with
    | [] => none
    | c :: rest =>
      if c = '"' then parseStringBody rest
      else if c = lbrace then
        match skipWs rest with
        | [] => none
        | d :: r2 => if d = rbrace then some r2 else parseMembers fuel (d :: r2)
      else if c = '[' then
        match skipWs rest with
        | [] => none
        | d :: r2 => if d = ']' then some r2 else parseElements fuel (d :: r2)
      else if c = 't' then
        match rest with
        | 'r' :: 'u' :: 'e' :: r2 => some r2
        | _ => none
      else if c = 'f' then
        match rest with
        | 'a' :: 'l' :: 's' :: 'e' :: r2 => some r2
        | _ => none
      else if c = 'n' then
        match rest with
        | 'u' :: 'l' :: 'l' :: r2 => some r2
        | _ => none
      else parseNumber (c :: rest)

/-- One or more `"key": value` members, then the closing brace. -/
def parseMembers : ℕ → List Char → Option (List Char)
  | 0, _ => none
  | fuel + 1, cs =>
    match skipWs cs with
    | [] => none
    | c :: rest =>
      if c = '"' then
        match parseStringBody rest with
        | none => none
        | some r1 =>
          match skipWs r1 with
          | ':' :: r2 =>
            match parseValue fuel r2 with
            | none => none
            | some r3 =>
              match skipWs r3 with
              | ',' :: r4 => parseMembers fuel r4
              | d :: r4 => if d = rbrace then some r4 else none
              | [] => none
          | _ => none
      else none

/-- One or more array elements, then the closing bracket. -/
def parseElements : ℕ → List Char → Option (List Char)
  | 0, _ => none
  | fuel + 1, cs =>
    match parseValue fuel cs with
    | none => none
    | some r =>
      match skipWs r with
      | ',' :: r2 => parseElements fuel r2
      | ']' :: r2 => some r2
      | _ => none

end

/-- Acceptance test modelling a successful `json.loads(s)`. -/
def json_loads_ok (s : String) : Bool :=
  match parseValue (s.length + 1) s.toList with
  | some rest => (skipWs rest).isEmpty
  | none => false

/-! ### SRT generation (`editor.py`, `_generate_srt` / `_format_srt_time`
/ `_add_captions`)

`_generate_srt` iterates over *all* transcript segments (no window
filtering), numbering from 1; `_add_captions` burns the SRT in with a
fixed `force_style`. -/

structure TSeg where
  start : ℚ
  «end» : ℚ
  text : String
deriving DecidableEq

def pad2 (n : ℕ) : String := if n < 10 then "0" ++ toString n else toString n

def pad3 (n : ℕ) : String :=
  if n < 10 then "00" ++ toString n else if n < 100 then "0" ++ toString n else toString n

/-- `_format_srt_time`: `HH:MM:SS,mmm` from
`int(s // 3600)`, `int((s % 3600) // 60)`, `int(s % 60)`,
`int((s % 1) * 1000)`. -/
def format_srt_time (seconds : ℚ) : String :=
  let hours := (⌊seconds / 3600⌋).toNat
  let minutes := (⌊(seconds - 3600 * ⌊seconds / 3600⌋) / 60⌋).toNat
  let secs := (⌊seconds - 60 * (⌊seconds / 60⌋ : ℚ)⌋).toNat
  let millis := (⌊(seconds - (⌊seconds⌋ : ℚ)) * 1000⌋).toNat
  pad2 hours ++ ":" ++ pad2 minutes ++ ":" ++ pad2 secs ++ "," ++ pad3 millis

/-- Python's `str.strip()` (ASCII whitespace). -/
def pyStrip (s : String) : String :=
  let ltrimmed := s.toList.dropWhile isPyWs
  String.mk (ltrimmed.reverse.dropWhile isPyWs).reverse

/-- One numbered SRT block: index, time range, stripped text, blank
line. -/
def srt_block (idx : ℕ) (seg : TSeg) : String :=
  toString idx ++ "\n" ++ format_srt_time seg.start ++ " --> " ++ format_srt_time seg.«end» ++
    "\n" ++ pyStrip seg.text ++ "\n\n"

/-- The write loop of `_generate_srt`, enumerating from `i`. -/
def generate_srt_blocks : ℕ → List TSeg → List String
  | _, [] => []
  | i, s :: rest => srt_block i s :: generate_srt_blocks (i + 1) rest

/-- The full SRT file contents produced by `_generate_srt`: every
transcript segment, in order, numbered from 1; the EDL is not consulted. -/
def generate_srt (segments : List TSeg) : String :=
  String.join (generate_srt_blocks 1 segments)

/-- The constant `force_style` of `_add_captions`. -/
def force_style : String :=
  "FontSize=24,PrimaryColour=&Hffffff,OutlineColour=&H000000,Outline=2"

/-- `_add_captions`: for style `"burn_in"`, the subtitles filter receives
the generated SRT and the fixed style; otherwise no filter is applied. -/
def add_captions (segments : List TSeg) (style : String) : Option (String × String) :=
  if style = "burn_in" then some (generate_srt segments, force_style) else none

/-! ### Upload step (`workers/tasks.py`, Step 5 of
`generate_and_apply_ai_edit_pipeline`)

For an output file that exists locally, the local path is always
recorded; the object-storage upload runs only when `callback_url` is set;
`upload_to_supabase_storage` returns `None` when credentials are missing
and raises on failure, but the pipeline wraps the call in
`try/except` and continues either way ("Continue even if upload
fails"). -/

inductive UploadResult where
  | uploaded (url : String)
  | skippedNoCreds
  | failed (msg : String)
deriving DecidableEq

structure StageOutcome where
  local_paths : List String
  uploaded_urls : List String
  pipelineFailed : Bool
deriving DecidableEq

/-- Step 5 of the pipeline for one rendered aspect ratio. -/
def upload_stage (callback_url : Option String) (local_path : String)
    (res : UploadResult) : StageOutcome :=
  match callback_url with
  | some _ =>
    match res with
    | UploadResult.uploaded url =>
      { local_paths := [local_path], uploaded_urls := [url], pipelineFailed := false }
    | UploadResult.skippedNoCreds =>
      { local_paths := [local_path], uploaded_urls := [], pipelineFailed := false }
    | UploadResult.failed _ =>
      { local_paths := [local_path], uploaded_urls := [], pipelineFailed := false }
  | none => { local_paths := [local_path], uploaded_urls := [], pipelineFailed := false }

/-! ## Theorems -/

theorem resolve_pct_bounds (sp : StoryPrompt) :
    25 ≤ resolve_desired_length_percentage sp ∧ resolve_desired_length_percentage sp ≤ 100 := by
  unfold resolve_desired_length_percentage
  refine ⟨le_max_left _ _, max_le (by norm_num) (min_le_left _ _)⟩

/-- C1 (counterexample): for a 20 s video with `desired_length_percentage
= 30`, the prompt builder states a target duration of 6 s, not the 12 s
that the spec's `max(minimum, duration·pct/100)` rule would give. -/
theorem C1_counterexample :
    target_duration 20 { desired_length_percentage := some 30 } = 6 ∧
      specTargetDuration 20 30 = 12 ∧ (6 : ℚ) ≠ 12 := by
  refine ⟨by norm_num [target_duration, resolve_desired_length_percentage], ?_, by norm_num⟩
  norm_num [specTargetDuration, specMinimumRule]

/-- C1 (amended): the user prompt states the target duration as
`video_duration · clamp(p, 25, 100) / 100`; no minimum-duration rule is
applied, so the stated target always lies between a quarter of the
source duration and the full source duration, and for a 20 s video with
`p = 30` it is 6 s. -/
theorem C1_target_duration_clamped (D : ℚ) (sp : StoryPrompt) (hD : 0 ≤ D) :
    D * (25 / 100) ≤ target_duration D sp ∧ target_duration D sp ≤ D ∧
      target_duration 20 { desired_length_percentage := some 30 } = 6 := by
  obtain ⟨h1, h2⟩ := resolve_pct_bounds sp
  unfold target_duration
  refine ⟨mul_le_mul_of_nonneg_left (by linarith) hD, ?_, ?_⟩
  · calc D * (resolve_desired_length_percentage sp / 100) ≤ D * 1 :=
        mul_le_mul_of_nonneg_left (by linarith) hD
      _ = D := mul_one D
  · norm_num [target_duration, resolve_desired_length_percentage]

/-- C1 (witness). -/
theorem C1_target_duration_clamped_witness :
    (40 : ℚ) * (25 / 100) ≤ target_duration 40 { desired_length := some "long" } ∧
      target_duration 40 { desired_length := some "long" } ≤ 40 ∧
        target_duration 20 { desired_length_percentage := some 30 } = 6 :=
  C1_target_duration_clamped 40 { desired_length := some "long" } (by norm_num)

theorem keepOnly_eq_nil {l : List CSeg} (h : ∀ s ∈ l, segType s ≠ "keep") :
    keepOnly l = [] := by
  unfold keepOnly
  rw [List.filterMap_eq_nil_iff]
  intro s hs
  rw [if_neg (h s hs)]

/-- C4: a plan whose EDL is empty, or whose segments are all typed
`"skip"`, makes the apply stage fail with the validation `ValueError`
before any renderer is invoked: the outcome is `failed` and never
`rendered`. -/
theorem C4_empty_or_allskip_fails (plan_edl : List CSeg)
    (h : plan_edl = [] ∨ ∀ s ∈ plan_edl, segType s = "skip") :
    applyStageGuard plan_edl =
        ApplyOutcome.failed "No valid segments in edit plan. EDL is empty after conversion." ∧
      ∀ e, applyStageGuard plan_edl ≠ ApplyOutcome.rendered e := by
  have hk : keepOnly plan_edl = [] := by
    rcases h with h | h
    · rw [h]; rfl
    · refine keepOnly_eq_nil fun s hs he => ?_
      have := h s hs
      rw [this] at he
      exact absurd he (by decide)
  have hconv : convert_llm_edl_to_editor_format plan_edl = [] := by
    unfold convert_llm_edl_to_editor_format
    rw [hk]
    rfl
  constructor
  · unfold applyStageGuard
    rw [hconv]
    rfl
  · intro e he
    unfold applyStageGuard at he
    rw [hconv] at he
    exact absurd he (by simp)

/-- C4 (witness). -/
theorem C4_empty_or_allskip_fails_witness :
    applyStageGuard [{ start := 0, «end» := 5, type := some "skip" }] =
        ApplyOutcome.failed "No valid segments in edit plan. EDL is empty after conversion." :=
  (C4_empty_or_allskip_fails [{ start := 0, «end» := 5, type := some "skip" }]
    (Or.inr (by decide))).1

/-- C9 (counterexample): with a webhook requested and the object-storage
upload failing, the pipeline does not fail — the exception is caught and
execution continues — contradicting the claim that upload failure fails
the pipeline exactly when a webhook was requested. -/
theorem C9_counterexample :
    ¬ (upload_stage (some "https://cb.example/hook") "/out/edited_16_9.mp4"
        (UploadResult.failed "supabase 500")).pipelineFailed = true := by
  decide

/-- C9 (amended): the upload runs only when a webhook was requested, and
its failure never fails the pipeline: in every case the stage completes
with `pipelineFailed = false` and the local output path recorded; no
URL is recorded without a webhook, and none is recorded when the upload
raised. -/
theorem C9_upload_failure_is_soft (cb : Option String) (p : String) (r : UploadResult) :
    (upload_stage cb p r).pipelineFailed = false ∧
      (upload_stage cb p r).local_paths = [p] ∧
        (cb = none → (upload_stage cb p r).uploaded_urls = []) ∧
          ∀ m, r = UploadResult.failed m → (upload_stage cb p r).uploaded_urls = [] := by
  cases cb <;> cases r <;> simp [upload_stage]

/-- C9 (witness). -/
theorem C9_upload_failure_is_soft_witness :
    (upload_stage (some "https://cb.example/hook") "/out/a.mp4"
          (UploadResult.failed "boom")).pipelineFailed = false ∧
      (upload_stage (some "https://cb.example/hook") "/out/a.mp4"
          (UploadResult.failed "boom")).uploaded_urls = [] :=
  ⟨(C9_upload_failure_is_soft (some "https://cb.example/hook") "/out/a.mp4"
      (UploadResult.failed "boom")).1,
    (C9_upload_failure_is_soft (some "https://cb.example/hook") "/out/a.mp4"
      (UploadResult.failed "boom")).2.2.2 "boom" rfl⟩

/-- C8 (counterexample): the SRT generator emits a block for a transcript
segment that lies outside (indeed disjoint from) every EDL window — the
claim that the SRT is generated only from segments within the surviving
windows is false. -/
theorem C8_counterexample :
    generate_srt [{ start := 10, «end» := 11, text := " hello " }] =
        "1\n00:00:10,000 --> 00:00:11,000\nhello\n\n" ∧
      ∀ w ∈ ([{ start := 0, «end» := 5, type := some "keep" }] : List CSeg),
        w.«end» < 10 ∨ 11 < w.start := by
  constructor
  · unfold generate_srt generate_srt_blocks srt_block format_srt_time
    norm_num
    rfl
  · intro w hw
    rw [List.mem_singleton] at hw
    subst hw
    norm_num

theorem generate_srt_blocks_length :
    ∀ (segs : List TSeg) (k : ℕ), (generate_srt_blocks k segs).length = segs.length := by
  intro segs
  induction segs with
  | nil => intro k; rfl
  | cons s rest ih => intro k; simp [generate_srt_blocks, ih (k + 1)]

theorem generate_srt_blocks_get? :
    ∀ (segs : List TSeg) (k i : ℕ),
      (generate_srt_blocks k segs).get? i = (segs.get? i).map fun s => srt_block (k + i) s := by
  intro segs
  induction segs with
  | nil => intro k i; simp [generate_srt_blocks]
  | cons s rest ih =>
    intro k i
    cases i with
    | zero => simp [generate_srt_blocks]
    | succ j =>
      have hkj : k + 1 + j = k + (j + 1) := by omega
      simp only [generate_srt_blocks, List.get?_cons_succ, ih (k + 1) j, hkj]

/-- C8 (amended): the renderer generates the SRT from *all* transcript
segments, in order and with their original source timestamps — one
numbered block per segment, the EDL windows are never consulted — and
burns it in with the fixed style
`FontSize=24,PrimaryColour=&Hffffff,OutlineColour=&H000000,Outline=2`. -/
theorem C8_srt_all_segments_and_style :
    (∀ (segs : List TSeg) (i : ℕ),
        (generate_srt_blocks 1 segs).length = segs.length ∧
          (generate_srt_blocks 1 segs).get? i = (segs.get? i).map fun s => srt_block (1 + i) s) ∧
      (∀ segs, add_captions segs "burn_in" = some (generate_srt segs, force_style)) ∧
        force_style = "FontSize=24,PrimaryColour=&Hffffff,OutlineColour=&H000000,Outline=2" := by
  exact ⟨fun segs i => ⟨generate_srt_blocks_length segs 1, generate_srt_blocks_get? segs 1 i⟩,
    fun segs => rfl, rfl⟩

theorem spanWs_append : ∀ cs : List Char, (spanWs cs).1 ++ (spanWs cs).2 = cs := by
  intro cs
  induction cs with
  | nil => rfl
  | cons c cs ih =>
    by_cases h : isPyWs c
    · simp [spanWs, h, ih]
    · simp [spanWs, h]

theorem removeTrailingCommas_count (c : Char) (hc : ¬ c = ',') :
    ∀ (fuel : ℕ) (cs : List Char),
      (removeTrailingCommas fuel cs).count c = cs.count c := by
  intro fuel
  induction fuel with
  | zero => intro cs; rfl
  | succ n ih =>
    intro cs
    cases cs with
    | nil => rfl
    | cons d ds =>
      by_cases hd : d = ','
      · subst hd
        rcases h : spanWs ds with ⟨w, r⟩
        have hds : w ++ r = ds := by
          have h2 := spanWs_append ds
          rw [h] at h2
          exact h2
        cases r with
        | nil =>
          have hstep : removeTrailingCommas (n + 1) (',' :: ds) =
              ',' :: removeTrailingCommas n ds := by
            simp only [removeTrailingCommas, if_pos rfl, h, if_true]
          rw [hstep]
          simp [List.count_cons, hc, ih]
        | cons b rest =>
          by_cases hb : b = rbrace ∨ b = ']'
          · have hstep : removeTrailingCommas (n + 1) (',' :: ds) =
                w ++ b :: removeTrailingCommas n rest := by
              simp only [removeTrailingCommas, if_pos rfl, h, if_true]
              rw [if_pos hb]
            rw [hstep, ← hds]
            simp [List.count_append, List.count_cons, hc, ih]
          · have hstep : removeTrailingCommas (n + 1) (',' :: ds) =
                ',' :: removeTrailingCommas n ds := by
              simp only [removeTrailingCommas, if_pos rfl, h, if_true]
              rw [if_neg hb]
            rw [hstep]
            simp [List.count_cons, hc, ih]
      · simp only [removeTrailingCommas, if_neg hd]
        simp [List.count_cons, ih]

theorem appendDeficits_balanced (r : List Char)
    (h1 : r.count rbrace ≤ r.count lbrace) (h2 : r.count ']' ≤ r.count '[') :
    (appendDeficits r).count lbrace = (appendDeficits r).count rbrace ∧
      (appendDeficits r).count '[' = (appendDeficits r).count ']' := by
  have d1 : ¬ (lbrace = rbrace) := by decide
  have d2 : ¬ (rbrace = lbrace) := by decide
  have d3 : ¬ (lbrace = '\n') := by decide
  have d4 : ¬ (rbrace = '\n') := by decide
  have d5 : ¬ ('[' = ']') := by decide
  have d6 : ¬ (']' = '[') := by decide
  have d7 : ¬ ('[' = '\n') := by decide
  have d8 : ¬ (']' = '\n') := by decide
  have d9 : ¬ ('[' = rbrace) := by decide
  have d10 : ¬ (']' = rbrace) := by decide
  have d11 : ¬ (lbrace = ']') := by decide
  have d12 : ¬ (rbrace = ']') := by decide
  have d13 : ¬ (lbrace = '[') := by decide
  have d14 : ¬ (rbrace = '[') := by decide
  have d15 : ¬ (']' = lbrace) := by decide
  have d16 : ¬ ('[' = lbrace) := by decide
  have d17 : ¬ ('\n' = lbrace) := by decide
  have d18 : ¬ ('\n' = rbrace) := by decide
  have d19 : ¬ ('\n' = '[') := by decide
  have d20 : ¬ ('\n' = ']') := by decide
  unfold appendDeficits
  by_cases hb : r.count rbrace < r.count lbrace <;>
    by_cases hk : r.count ']' < r.count '[' <;>
      simp only [hb, hk, if_true, if_false, reduceIte] <;>
        refine ⟨?_, ?_⟩ <;>
          (try simp [List.count_append, List.count_cons, List.count_replicate,
            d1, d2, d3, d4, d5, d6, d7, d8, d9, d10, d11, d12, d13, d14,
            d15, d16, d17, d18, d19, d20]) <;>
            omega

/-- C5 (counterexample): the LLM response truncated as
`{"a": {"b": [1, 2` (two unbalanced braces, one unbalanced bracket,
innermost `[`) fails to parse only because of truncation — appending
`]}}` yields valid JSON — yet the repair routine appends `}}` before `]`
and produces a string that is not valid JSON. -/
theorem C5_counterexample :
    json_loads_ok ("\x7b\"a\": \x7b\"b\": [1, 2" ++ "]\x7d\x7d") = true ∧
      json_loads_ok (repair_json "\x7b\"a\": \x7b\"b\": [1, 2") = false := by
  constructor
  · decide
  · decide

/-- C5 (amended): the repair routine removes trailing commas and appends
the brace deficit followed by the bracket deficit, in that order (so
`}}` then `]`); whenever the input has at least as many opening braces
and brackets as closing ones, the repaired string has balanced brace and
bracket counts, and the repaired string is valid JSON when the
unbalanced brackets enclose the unbalanced braces — e.g. for the
truncation `[{"a": 1, "b": {"c": 2` with two unbalanced braces and one
unbalanced bracket — though not for the brace-outermost nesting. -/
theorem C5_repair_balances :
    (∀ s : String,
        s.toList.count rbrace ≤ s.toList.count lbrace →
          s.toList.count ']' ≤ s.toList.count '[' →
            (repair_json s).toList.count lbrace = (repair_json s).toList.count rbrace ∧
              (repair_json s).toList.count '[' = (repair_json s).toList.count ']') ∧
      json_loads_ok (repair_json "[\x7b\"a\": 1, \"b\": \x7b\"c\": 2") = true := by
  constructor
  · intro s h1 h2
    have hob : (removeTrailingCommas s.toList.length s.toList).count lbrace =
        s.toList.count lbrace := removeTrailingCommas_count lbrace (by decide) _ _
    have hcb : (removeTrailingCommas s.toList.length s.toList).count rbrace =
        s.toList.count rbrace := removeTrailingCommas_count rbrace (by decide) _ _
    have hobk : (removeTrailingCommas s.toList.length s.toList).count '[' =
        s.toList.count '[' := removeTrailingCommas_count '[' (by decide) _ _
    have hcbk : (removeTrailingCommas s.toList.length s.toList).count ']' =
        s.toList.count ']' := removeTrailingCommas_count ']' (by decide) _ _
    have key := appendDeficits_balanced (removeTrailingCommas s.toList.length s.toList)
      (by rw [hob, hcb]; exact h1) (by rw [hobk, hcbk]; exact h2)
    exact key
  · decide

theorem round2q_mono {a b : ℚ} (h : a ≤ b) : round2q a ≤ round2q b := by
  unfold round2q
  have h1 : round (a * 100) ≤ round (b * 100) := by
    rw [round_eq, round_eq]
    exact Int.floor_mono (by linarith)
  have h2 : ((round (a * 100) : ℤ) : ℚ) ≤ ((round (b * 100) : ℤ) : ℚ) := by exact_mod_cast h1
  linarith

theorem round2q_nonneg {q : ℚ} (h : 0 ≤ q) : 0 ≤ round2q q := by
  have h0 : round2q 0 = 0 := by unfold round2q; norm_num
  calc (0 : ℚ) = round2q 0 := h0.symm
    _ ≤ round2q q := round2q_mono h

theorem round2q_add_tenth (q : ℚ) : round2q (q + 1 / 10) = round2q q + 1 / 10 := by
  unfold round2q
  have h1 : (q + 1 / 10) * 100 = q * 100 + ((10 : ℤ) : ℚ) := by push_cast; ring
  rw [h1, round_add_int]
  push_cast
  ring

theorem round2q_le (q : ℚ) : round2q q ≤ q + 1 / 200 := by
  unfold round2q
  have h1 : ((round (q * 100) : ℤ) : ℚ) ≤ q * 100 + 1 / 2 := by
    rw [round_eq]
    exact_mod_cast Int.floor_le (q * 100 + 1 / 2)
  linarith

theorem sanitizeOne_bounds {D : ℚ} {r : RawSeg} {s : Seg} (h : sanitizeOne D r = some s) :
    0 ≤ s.start ∧ s.start < s.«end» ∧ s.«end» ≤ round2q D ∧ 1 / 10 ≤ s.«end» - s.start := by
  unfold sanitizeOne at h
  rcases hs0 : r.start with _ | s0
  · rw [hs0] at h; cases h
  rcases he0 : r.«end» with _ | e0
  · rw [hs0, he0] at h; cases h
  rw [hs0, he0] at h
  simp only at h
  set s1 := if s0 < 0 then (0 : ℚ) else s0 with hs1def
  set e1 := if D < e0 then D else e0 with he1def
  have hs1 : 0 ≤ s1 := by
    rw [hs1def]
    split_ifs with hneg
    · exact le_refl 0
    · linarith [not_lt.mp hneg]
  have he1D : e1 ≤ D := by
    rw [he1def]
    split_ifs with hover
    · exact le_refl D
    · linarith [not_lt.mp hover]
  by_cases hc1 : e1 ≤ s1
  · rw [if_pos hc1] at h; cases h
  rw [if_neg hc1] at h
  by_cases hc2 : e1 - s1 < 1 / 10
  · rw [if_pos hc2] at h; cases h
  rw [if_neg hc2] at h
  have hseq := Option.some.inj h
  subst hseq
  have hdur : s1 + 1 / 10 ≤ e1 := by
    have := not_lt.mp hc2
    linarith
  have key : round2q s1 + 1 / 10 ≤ round2q e1 := by
    calc round2q s1 + 1 / 10 = round2q (s1 + 1 / 10) := (round2q_add_tenth _).symm
      _ ≤ round2q e1 := round2q_mono hdur
  exact ⟨round2q_nonneg hs1, by linarith, round2q_mono he1D, by linarith⟩

theorem sanitizeSegs_sound (D : ℚ) :
    ∀ (i : ℕ) (l : List RawSeg) (s : Seg), s ∈ (sanitizeSegs D i l).2 →
      0 ≤ s.start ∧ s.start < s.«end» ∧ s.«end» ≤ round2q D ∧ 1 / 10 ≤ s.«end» - s.start := by
  intro i l
  induction l generalizing i with
  | nil => intro s hs; simp [sanitizeSegs] at hs
  | cons r rs ih =>
    intro s hs
    unfold sanitizeSegs at hs
    rcases hone : sanitizeOne D r with _ | s1
    · rw [hone] at hs
      exact ih (i + 1) s hs
    · rw [hone] at hs
      rcases List.mem_cons.mp hs with heq | hmem
      · subst heq
        exact sanitizeOne_bounds hone
      · exact ih (i + 1) s hmem

/-- C2 (counterexample): for source duration D = 10.006 the validator
clamps an over-duration end to D and then rounds it up to 10.01 > D, so
the sanitized EDL contains a segment with end > D, refuting
`end ≤ source_duration`. -/
theorem C2_counterexample :
    (validate_edl (10006 / 1000) (1 / 10) [{ start := some 0, «end» := some 20 }]).2.2 =
        [{ start := 0, «end» := 1001 / 100, type := "keep" }] ∧
      ¬ ((1001 : ℚ) / 100 ≤ 10006 / 1000) := by
  constructor
  · norm_num [validate_edl, sanitizeSegs, sanitizeOne, segErrsOne, List.insertionSort,
      List.orderedInsert, leRaw, round2q, round_eq]
  · norm_num

/-- C2 (amended): every segment of the sanitized EDL satisfies
`0 ≤ start < end ≤ round2(D)` and `end − start ≥ 0.1` after rounding;
since `round2(D) ≤ D + 0.005`, the sanitized end may exceed the source
duration by at most half a hundredth (and does exceed it for durations
that are not multiples of 0.01, see the counterexample). -/
theorem C2_sanitized_bounds (D tol : ℚ) (edl : List RawSeg) (hD : 0 < D) :
    (∀ s ∈ (validate_edl D tol edl).2.2,
        0 ≤ s.start ∧ s.start < s.«end» ∧ s.«end» ≤ round2q D ∧
          1 / 10 ≤ s.«end» - s.start) ∧
      round2q D ≤ D + 1 / 200 := by
  refine ⟨?_, round2q_le D⟩
  intro s hs
  unfold validate_edl at hs
  by_cases he : edl = []
  · rw [if_pos he] at hs
    simp at hs
  · rw [if_neg he] at hs
    exact sanitizeSegs_sound D 0 _ s hs

/-- C2 (witness). -/
theorem C2_sanitized_bounds_witness :
    (0 ≤ ({ start := 0, «end» := 5, type := "keep" } : Seg).start ∧
        ({ start := 0, «end» := 5, type := "keep" } : Seg).start <
          ({ start := 0, «end» := 5, type := "keep" } : Seg).«end» ∧
          ({ start := 0, «end» := 5, type := "keep" } : Seg).«end» ≤ round2q 10 ∧
            1 / 10 ≤ ({ start := 0, «end» := 5, type := "keep" } : Seg).«end» -
              ({ start := 0, «end» := 5, type := "keep" } : Seg).start) ∧
      round2q 10 ≤ 10 + 1 / 200 :=
  ⟨(C2_sanitized_bounds 10 (1 / 10) [{ start := some 0, «end» := some 5 }] (by norm_num)).1
      { start := 0, «end» := 5, type := "keep" }
      (by
        norm_num [validate_edl, sanitizeSegs, sanitizeOne, segErrsOne, List.insertionSort,
          List.orderedInsert, leRaw, round2q, round_eq]),
    (C2_sanitized_bounds 10 (1 / 10) [{ start := some 0, «end» := some 5 }] (by norm_num)).2⟩

theorem checkOverlaps_ne_nil (tol : ℚ) :
    ∀ (l1 : List Seg) (i : ℕ) (a b : Seg) (l2 : List Seg),
      a.type ≠ "transition" → b.type ≠ "transition" → b.start + tol < a.«end» →
        checkOverlaps tol i (l1 ++ a :: b :: l2) ≠ [] := by
  intro l1
  induction l1 with
  | nil =>
    intro i a b l2 ha hb hov
    simp only [List.nil_append, checkOverlaps]
    rw [if_pos ⟨ha, hb, hov⟩]
    simp
  | cons c l1' ih =>
    intro i a b l2 ha hb hov
    cases l1' with
    | nil =>
      intro hcontra
      have hcontra2 :
          ((if c.type ≠ "transition" ∧ a.type ≠ "transition" ∧ a.start + tol < c.«end» then
              [VErr.overlapWarning i]
            else []) ++ checkOverlaps tol (i + 1) (a :: b :: l2)) = [] := hcontra
      rcases List.append_eq_nil.mp hcontra2 with ⟨_, h2⟩
      exact ih (i + 1) a b l2 ha hb hov h2
    | cons c2 l1'' =>
      intro hcontra
      have hcontra2 :
          ((if c.type ≠ "transition" ∧ c2.type ≠ "transition" ∧ c2.start + tol < c.«end» then
              [VErr.overlapWarning i]
            else []) ++ checkOverlaps tol (i + 1) (c2 :: (l1'' ++ a :: b :: l2))) = [] := hcontra
      rcases List.append_eq_nil.mp hcontra2 with ⟨_, h2⟩
      exact ih (i + 1) a b l2 ha hb hov h2

/-- C3 (counterexample): two overlapping non-transition segments (starts
0–5 and 3–8, one source) both survive `validate_edl` unchanged, so the
sanitized EDL is not pairwise non-overlapping. -/
theorem C3_counterexample :
    (validate_edl 10 (1 / 10)
          [{ start := some 0, «end» := some 5, type := some "keep" },
            { start := some 3, «end» := some 8, type := some "keep" }]).2.2 =
        [{ start := 0, «end» := 5, type := "keep" }, { start := 3, «end» := 8, type := "keep" }] ∧
      (3 : ℚ) < 5 ∧ ("keep" : String) ≠ "transition" := by
  refine ⟨?_, by norm_num, by decide⟩
  norm_num [validate_edl, sanitizeSegs, sanitizeOne, segErrsOne, List.insertionSort,
    List.orderedInsert, leRaw, round2q, round_eq]
  simp

/-- C3 (amended): the validator does not drop overlapping segments; it
returns them in the sanitized EDL and, whenever two adjacent sanitized
non-transition segments overlap by more than the tolerance, the returned
error list is non-empty (an overlap warning is appended). -/
theorem C3_overlap_warned (D tol : ℚ) (edl : List RawSeg) (l1 l2 : List Seg) (a b : Seg)
    (h : (validate_edl D tol edl).2.2 = l1 ++ a :: b :: l2)
    (ha : a.type ≠ "transition") (hb : b.type ≠ "transition")
    (hov : b.start + tol < a.«end») :
    (validate_edl D tol edl).2.1 ≠ [] := by
  by_cases he : edl = []
  · unfold validate_edl
    rw [if_pos he]
    simp
  · unfold validate_edl at h ⊢
    rw [if_neg he] at h ⊢
    intro hcontra
    rcases List.append_eq_nil.mp hcontra with ⟨h1, _⟩
    rcases List.append_eq_nil.mp h1 with ⟨_, h2⟩
    rw [h] at h2
    exact checkOverlaps_ne_nil tol l1 0 a b l2 ha hb hov h2

/-- C3 (witness). -/
theorem C3_overlap_warned_witness :
    (validate_edl 10 (1 / 10)
        [{ start := some 0, «end» := some 5, type := some "keep" },
          { start := some 3, «end» := some 8, type := some "keep" }]).2.1.isEmpty = false := by
  rw [List.isEmpty_eq_false]
  exact
  C3_overlap_warned 10 (1 / 10)
    [{ start := some 0, «end» := some 5, type := some "keep" },
      { start := some 3, «end» := some 8, type := some "keep" }]
    [] [] { start := 0, «end» := 5, type := "keep" } { start := 3, «end» := 8, type := "keep" }
    (by
      norm_num [validate_edl, sanitizeSegs, sanitizeOne, segErrsOne, List.insertionSort,
        List.orderedInsert, leRaw, round2q, round_eq]
      simp)
    (by decide) (by decide) (by norm_num)

theorem dedupByTimestamp_length_le :
    ∀ (l : List Frame) (seen : List ℚ), (dedupByTimestamp l seen).length ≤ l.length := by
  intro l
  induction l with
  | nil => intro seen; simp [dedupByTimestamp]
  | cons f fs ih =>
    intro seen
    unfold dedupByTimestamp
    by_cases h : round2q f.timestamp_seconds ∈ seen
    · rw [if_pos h]
      calc (dedupByTimestamp fs seen).length ≤ fs.length := ih seen
        _ ≤ (f :: fs).length := by simp
    · rw [if_neg h]
      simpa using ih (round2q f.timestamp_seconds :: seen)

theorem dedupByTimestamp_mem (x : Frame) :
    ∀ (l : List Frame) (seen : List ℚ), x ∈ l →
      round2q x.timestamp_seconds ∉ seen →
      (∀ y ∈ l, round2q y.timestamp_seconds = round2q x.timestamp_seconds → y = x) →
        x ∈ dedupByTimestamp l seen := by
  intro l
  induction l with
  | nil => intro seen hx; simp at hx
  | cons g gs ih =>
    intro seen hx hnotin huniq
    unfold dedupByTimestamp
    by_cases hseen : round2q g.timestamp_seconds ∈ seen
    · rw [if_pos hseen]
      have hxg : x ≠ g := by
        intro he
        subst he
        exact hnotin hseen
      have hxgs : x ∈ gs := by
        rcases List.mem_cons.mp hx with h | h
        · exact absurd h hxg
        · exact h
      exact ih seen hxgs hnotin fun y hy => huniq y (List.mem_cons_of_mem _ hy)
    · rw [if_neg hseen]
      by_cases hxg : x = g
      · subst hxg
        exact List.mem_cons_self _ _
      · have hxgs : x ∈ gs := by
          rcases List.mem_cons.mp hx with h | h
          · exact absurd h hxg
          · exact h
        have hkey : round2q g.timestamp_seconds ≠ round2q x.timestamp_seconds := by
          intro he
          exact hxg ((huniq g (List.mem_cons_self _ _) he).symm)
        refine List.mem_cons_of_mem _ (ih (round2q g.timestamp_seconds :: seen) hxgs ?_ ?_)
        · intro hc
          rcases List.mem_cons.mp hc with h | h
          · exact hkey h.symm
          · exact hnotin h
        · exact fun y hy => huniq y (List.mem_cons_of_mem _ hy)

theorem pairwise_key_inj {l : List Frame}
    (hp : l.Pairwise fun a b => round2q a.timestamp_seconds ≠ round2q b.timestamp_seconds)
    {a b : Frame} (ha : a ∈ l) (hb : b ∈ l)
    (hk : round2q a.timestamp_seconds = round2q b.timestamp_seconds) : a = b := by
  by_contra hne
  have hsymm : Symmetric
      (fun a b : Frame => round2q a.timestamp_seconds ≠ round2q b.timestamp_seconds) :=
    fun _ _ h => Ne.symm h
  exact hp.forall hsymm ha hb hne hk

theorem sorted_getLast_max :
    ∀ (l : List Frame), List.Sorted leTs l → ∀ (hne : l ≠ []) (y : Frame), y ∈ l →
      leTs y (l.getLast hne) := by
  intro l
  induction l with
  | nil => intro _ hne; exact absurd rfl hne
  | cons a t ih =>
    intro hs hne y hy
    cases t with
    | nil =>
      rcases List.mem_singleton.mp hy with rfl
      exact le_refl _
    | cons b t' =>
      rw [List.getLast_cons (by simp : b :: t' ≠ [])]
      rcases List.mem_cons.mp hy with rfl | hy'
      · exact List.rel_of_sorted_cons hs _ (List.getLast_mem _)
      · exact ih hs.of_cons (by simp) y hy'

theorem middleFrames_subset {m : ℕ} {sorted : List Frame} {y : Frame}
    (hy : y ∈ middleFrames m sorted) : y ∈ sorted := by
  unfold middleFrames at hy
  split_ifs at hy with hc
  · rcases List.mem_filterMap.mp hy with ⟨i, _, hf⟩
    split_ifs at hf with hidx
    exact List.get?_mem hf
  · simp at hy

theorem selectedFrames_subset {m : ℕ} {sorted : List Frame} {y : Frame}
    (hy : y ∈ selectedFrames m sorted) : y ∈ sorted := by
  unfold selectedFrames at hy
  rcases List.mem_append.mp hy with h1 | h2
  · rcases List.mem_append.mp h1 with ht | hl
    · exact List.take_subset 1 sorted ht
    · by_cases hc : 1 < sorted.length
      · rw [if_pos hc] at hl
        have hsome := Option.mem_toList.mp hl
        rcases List.mem_getLast?_eq_getLast hsome with ⟨hne, rfl⟩
        exact List.getLast_mem hne
      · rw [if_neg hc] at hl
        simp at hl
  · exact middleFrames_subset h2

theorem selectedFrames_length_le {m : ℕ} (sorted : List Frame) (hm : 2 ≤ m) :
    (selectedFrames m sorted).length ≤ m := by
  unfold selectedFrames
  have h3 : (sorted.take 1).length ≤ 1 := by
    simp [List.length_take]
  have h4 : (if 1 < sorted.length then sorted.getLast?.toList else []).length ≤ 1 := by
    split_ifs
    · cases sorted.getLast? <;> simp
    · simp
  have h5 : (middleFrames m sorted).length ≤ min m sorted.length - 2 := by
    unfold middleFrames
    split_ifs with hc
    · calc (List.filterMap _ (midIndices sorted.length (min m sorted.length))).length ≤
          (midIndices sorted.length (min m sorted.length)).length :=
            List.length_filterMap_le _ _
        _ = min m sorted.length - 2 := by
            unfold midIndices
            simp [List.length_range']
    · simp
  have h6 : min m sorted.length ≤ m := Nat.min_le_left _ _
  simp only [List.length_append]
  omega

theorem temporalSampling_length_le (m : ℕ) (fl : List Frame) (hm : 2 ≤ m) :
    (temporalSampling m fl).length ≤ m := by
  unfold temporalSampling
  refine le_trans (le_of_eq (List.perm_insertionSort leTs _).length_eq) ?_
  refine le_trans (dedupByTimestamp_length_le _ _) ?_
  exact selectedFrames_length_le _ hm

theorem selectedFrames_head_mem {m : ℕ} {s : List Frame} {hd : Frame} {tl : List Frame}
    (h : s = hd :: tl) : hd ∈ selectedFrames m s := by
  subst h
  unfold selectedFrames
  apply List.mem_append.mpr
  left
  apply List.mem_append.mpr
  left
  simp

theorem selectedFrames_getLast_mem {m : ℕ} {s : List Frame} (h : 1 < s.length)
    (hne : s ≠ []) : s.getLast hne ∈ selectedFrames m s := by
  unfold selectedFrames
  apply List.mem_append.mpr
  left
  apply List.mem_append.mpr
  right
  rw [if_pos h, List.getLast?_eq_getLast_of_ne_nil hne]
  simp

theorem temporalSampling_mem_first (m : ℕ) (fl : List Frame)
    (hp : fl.Pairwise fun a b => round2q a.timestamp_seconds ≠ round2q b.timestamp_seconds)
    (f : Frame) (hf : f ∈ fl)
    (hmin : ∀ g ∈ fl, f.timestamp_seconds ≤ g.timestamp_seconds) :
    f ∈ temporalSampling m fl := by
  unfold temporalSampling
  have hperm : (List.insertionSort leTs fl).Perm fl := List.perm_insertionSort leTs fl
  have hsort : List.Sorted leTs (List.insertionSort leTs fl) := List.sorted_insertionSort leTs fl
  have hfs : f ∈ List.insertionSort leTs fl := hperm.mem_iff.mpr hf
  apply (List.perm_insertionSort leTs _).mem_iff.mpr
  apply dedupByTimestamp_mem f _ []
  · obtain ⟨hd, tl, hhd⟩ : ∃ hd tl, List.insertionSort leTs fl = hd :: tl := by
      cases h : List.insertionSort leTs fl with
      | nil => rw [h] at hfs; simp at hfs
      | cons a b => exact ⟨a, b, rfl⟩
    have hhdmem : hd ∈ fl := hperm.mem_iff.mp (hhd ▸ List.mem_cons_self hd tl)
    have hfhd : f = hd := by
      have h1 : f.timestamp_seconds ≤ hd.timestamp_seconds := hmin hd hhdmem
      have h2 : hd.timestamp_seconds ≤ f.timestamp_seconds := by
        rw [hhd] at hfs hsort
        rcases List.mem_cons.mp hfs with rfl | hftl
        · exact le_refl _
        · exact List.rel_of_sorted_cons hsort f hftl
      exact pairwise_key_inj hp hf hhdmem (by rw [le_antisymm h1 h2])
    rw [hfhd]
    exact selectedFrames_head_mem hhd
  · simp
  · intro y hy hkey
    exact pairwise_key_inj hp (hperm.mem_iff.mp (selectedFrames_subset hy)) hf hkey

theorem temporalSampling_mem_last (m : ℕ) (fl : List Frame)
    (hp : fl.Pairwise fun a b => round2q a.timestamp_seconds ≠ round2q b.timestamp_seconds)
    (f : Frame) (hf : f ∈ fl)
    (hmax : ∀ g ∈ fl, g.timestamp_seconds ≤ f.timestamp_seconds) :
    f ∈ temporalSampling m fl := by
  unfold temporalSampling
  have hperm : (List.insertionSort leTs fl).Perm fl := List.perm_insertionSort leTs fl
  have hsort : List.Sorted leTs (List.insertionSort leTs fl) := List.sorted_insertionSort leTs fl
  have hfs : f ∈ List.insertionSort leTs fl := hperm.mem_iff.mpr hf
  have hne : List.insertionSort leTs fl ≠ [] := by
    intro hc
    rw [hc] at hfs
    simp at hfs
  apply (List.perm_insertionSort leTs _).mem_iff.mpr
  apply dedupByTimestamp_mem f _ []
  · by_cases hlen : 1 < (List.insertionSort leTs fl).length
    · have hlst : f = (List.insertionSort leTs fl).getLast hne := by
        have h1 : leTs f ((List.insertionSort leTs fl).getLast hne) :=
          sorted_getLast_max _ hsort hne f hfs
        have h2 : ((List.insertionSort leTs fl).getLast hne).timestamp_seconds ≤
            f.timestamp_seconds := hmax _ (hperm.mem_iff.mp (List.getLast_mem hne))
        exact pairwise_key_inj hp hf (hperm.mem_iff.mp (List.getLast_mem hne))
          (by rw [le_antisymm h1 h2])
      rw [hlst]
      exact selectedFrames_getLast_mem hlen hne
    · obtain ⟨x, hx⟩ : ∃ x, List.insertionSort leTs fl = [x] := by
        apply List.length_eq_one.mp
        have hge : 1 ≤ (List.insertionSort leTs fl).length :=
          List.length_pos.mpr hne
        omega
      have hfx : f = x := by
        rw [hx] at hfs
        simpa using hfs
      rw [hfx]
      exact selectedFrames_head_mem hx
  · simp
  · intro y hy hkey
    exact pairwise_key_inj hp (hperm.mem_iff.mp (selectedFrames_subset hy)) hf hkey

/-- C7 (counterexample): with `max_frames = 1` and two valid frames, the
compressor returns 2 frames (it always selects both the first and the
last), violating the claimed bound of at most `m` frames. -/
theorem C7_counterexample :
    (compress_frames 1 [{ timestamp_seconds := 0, description := "a" },
        { timestamp_seconds := 1, description := "b" }]).length = 2 ∧
      ¬ (2 ≤ 1) := by
  constructor
  · simp [compress_frames, validFrames, List.filter]
    norm_num [temporalSampling, selectedFrames, middleFrames, midIndices, List.insertionSort,
      List.orderedInsert, leTs, dedupByTimestamp, round2q, round_eq]
  · omega

/-- C7 (amended): provided `max_frames = m ≥ 2`, `compress_frames`
returns at most `m` frames; and when the filtered frames have pairwise
distinct timestamps after rounding to 2 decimals, the first and the last
frame by timestamp are both present in the returned list. -/
theorem C7_compress (m : ℕ) (frames : List Frame) (hm : 2 ≤ m) :
    (compress_frames m frames).length ≤ m ∧
      ((validFrames frames).Pairwise
          (fun a b => round2q a.timestamp_seconds ≠ round2q b.timestamp_seconds) →
        ∀ f ∈ validFrames frames,
          ((∀ g ∈ validFrames frames, f.timestamp_seconds ≤ g.timestamp_seconds) →
              f ∈ compress_frames m frames) ∧
            ((∀ g ∈ validFrames frames, g.timestamp_seconds ≤ f.timestamp_seconds) →
              f ∈ compress_frames m frames)) := by
  unfold compress_frames
  by_cases hle : (validFrames frames).length ≤ m
  · rw [if_pos hle]
    exact ⟨hle, fun _ f hf => ⟨fun _ => hf, fun _ => hf⟩⟩
  · rw [if_neg hle]
    refine ⟨temporalSampling_length_le m _ hm, fun hp f hf => ?_⟩
    exact ⟨fun hmin => temporalSampling_mem_first m _ hp f hf hmin,
      fun hmax => temporalSampling_mem_last m _ hp f hf hmax⟩

/-- C7 (witness). -/
theorem C7_compress_witness :
    (compress_frames 2 [{ timestamp_seconds := 0, description := "a" },
        { timestamp_seconds := 1, description := "b" },
        { timestamp_seconds := 2, description := "c" }]).length ≤ 2 :=
  (C7_compress 2 [{ timestamp_seconds := 0, description := "a" },
    { timestamp_seconds := 1, description := "b" },
    { timestamp_seconds := 2, description := "c" }] (by omega)).1

theorem mergeRun_head : ∀ (ts : List CSeg) (cur : CSeg),
    ∃ hd tl, mergeRun cur ts = hd :: tl ∧ hd.start = cur.start ∧
      hd.video_id = cur.video_id ∧ hd.type = cur.type := by
  intro ts
  induction ts with
  | nil => intro cur; exact ⟨cur, [], rfl, rfl, rfl, rfl⟩
  | cons t ts ih =>
    intro cur
    unfold mergeRun
    by_cases hc : t.video_id = cur.video_id ∧ t.start ≤ cur.«end»
    · rw [if_pos hc]
      exact ih { cur with «end» := max cur.«end» t.«end» }
    · rw [if_neg hc]
      exact ⟨cur, mergeRun t ts, rfl, rfl, rfl, rfl⟩

theorem mergeRun_mem_shape : ∀ (ts : List CSeg) (cur s : CSeg), s ∈ mergeRun cur ts →
    ∃ u ∈ cur :: ts, s.start = u.start ∧ s.video_id = u.video_id ∧ s.type = u.type := by
  intro ts
  induction ts with
  | nil =>
    intro cur s hs
    rcases List.mem_singleton.mp hs with rfl
    exact ⟨s, List.mem_cons_self _ _, rfl, rfl, rfl⟩
  | cons t ts ih =>
    intro cur s hs
    unfold mergeRun at hs
    by_cases hc : t.video_id = cur.video_id ∧ t.start ≤ cur.«end»
    · rw [if_pos hc] at hs
      rcases ih _ s hs with ⟨u, hu, h1, h2, h3⟩
      rcases List.mem_cons.mp hu with rfl | hu'
      · exact ⟨cur, List.mem_cons_self _ _, h1, h2, h3⟩
      · exact ⟨u, List.mem_cons_of_mem _ (List.mem_cons_of_mem _ hu'), h1, h2, h3⟩
    · rw [if_neg hc] at hs
      rcases List.mem_cons.mp hs with rfl | hs'
      · exact ⟨s, List.mem_cons_self _ _, rfl, rfl, rfl⟩
      · rcases ih t s hs' with ⟨u, hu, h1, h2, h3⟩
        exact ⟨u, List.mem_cons_of_mem _ hu, h1, h2, h3⟩

theorem mergeRun_vid_onto : ∀ (ts : List CSeg) (cur u : CSeg), u ∈ cur :: ts →
    ∃ s ∈ mergeRun cur ts, s.video_id = u.video_id := by
  intro ts
  induction ts with
  | nil =>
    intro cur u hu
    rcases List.mem_singleton.mp hu with rfl
    exact ⟨u, List.mem_singleton.mpr rfl, rfl⟩
  | cons t ts ih =>
    intro cur u hu
    unfold mergeRun
    by_cases hc : t.video_id = cur.video_id ∧ t.start ≤ cur.«end»
    · rw [if_pos hc]
      rcases List.mem_cons.mp hu with rfl | hu'
      · rcases ih { u with «end» := max u.«end» t.«end» } _
            (List.mem_cons_self _ _) with ⟨s, hs, hvid⟩
        exact ⟨s, hs, hvid⟩
      · rcases List.mem_cons.mp hu' with rfl | hu''
        · rcases ih { cur with «end» := max cur.«end» u.«end» } _
            (List.mem_cons_self _ _) with ⟨s, hs, hvid⟩
          exact ⟨s, hs, hvid.trans hc.1.symm⟩
        · rcases ih { cur with «end» := max cur.«end» t.«end» } u
              (List.mem_cons_of_mem _ hu'') with ⟨s, hs, hvid⟩
          exact ⟨s, hs, hvid⟩
    · rw [if_neg hc]
      rcases List.mem_cons.mp hu with rfl | hu'
      · exact ⟨u, List.mem_cons_self _ _, rfl⟩
      · rcases ih t u hu' with ⟨s, hs, hvid⟩
        exact ⟨s, List.mem_cons_of_mem _ hs, hvid⟩

theorem mergeRun_sorted : ∀ (ts : List CSeg) (cur : CSeg),
    List.Sorted leVid (cur :: ts) → List.Sorted leVid (mergeRun cur ts) := by
  intro ts
  induction ts with
  | nil => intro cur _; simp [mergeRun]
  | cons t ts ih =>
    intro cur hs
    unfold mergeRun
    by_cases hc : t.video_id = cur.video_id ∧ t.start ≤ cur.«end»
    · rw [if_pos hc]
      apply ih
      apply List.sorted_cons.mpr
      refine ⟨fun y hy => ?_, (List.sorted_cons.mp hs).2.of_cons⟩
      have hrel : leVid cur y :=
        (List.sorted_cons.mp hs).1 y (List.mem_cons_of_mem _ hy)
      exact hrel
    · rw [if_neg hc]
      apply List.sorted_cons.mpr
      constructor
      · intro y hy
        rcases mergeRun_mem_shape ts t y hy with ⟨u, hu, h1, h2, _⟩
        have hrel : leVid cur u := (List.sorted_cons.mp hs).1 u hu
        unfold leVid at hrel ⊢
        have hkey : vidKey y = vidKey u := by unfold vidKey; rw [h2]
        rw [hkey, h1]
        exact hrel
      · exact ih t (List.sorted_cons.mp hs).2

theorem mergeRun_chain : ∀ (ts : List CSeg) (cur : CSeg),
    List.Chain' mergedSep (mergeRun cur ts) := by
  intro ts
  induction ts with
  | nil => intro cur; simp [mergeRun]
  | cons t ts ih =>
    intro cur
    unfold mergeRun
    by_cases hc : t.video_id = cur.video_id ∧ t.start ≤ cur.«end»
    · rw [if_pos hc]
      exact ih _
    · rw [if_neg hc]
      apply List.chain'_cons'.mpr
      refine ⟨fun y hy => ?_, ih t⟩
      rcases mergeRun_head ts t with ⟨hd, tl, heq, h1, h2, _⟩
      rw [heq] at hy
      simp only [List.head?_cons, Option.mem_def, Option.some.injEq] at hy
      subst hy
      unfold mergedSep
      rw [h1, h2]
      exact hc

theorem mergeRun_eq_self : ∀ (ts : List CSeg) (cur : CSeg),
    List.Chain' mergedSep (cur :: ts) → mergeRun cur ts = cur :: ts := by
  intro ts
  induction ts with
  | nil => intro cur _; rfl
  | cons t ts ih =>
    intro cur hc
    have h1 : mergedSep cur t := (List.chain'_cons.mp hc).1
    unfold mergeRun
    rw [if_neg h1]
    rw [ih t (List.chain'_cons.mp hc).2]

theorem mergeAdjacent_sorted {l : List CSeg} (h : List.Sorted leVid l) :
    List.Sorted leVid (mergeAdjacent l) := by
  cases l with
  | nil => simp [mergeAdjacent]
  | cons s rest => exact mergeRun_sorted rest s h

theorem mergeAdjacent_chain (l : List CSeg) : List.Chain' mergedSep (mergeAdjacent l) := by
  cases l with
  | nil => simp [mergeAdjacent]
  | cons s rest => exact mergeRun_chain rest s

theorem mergeAdjacent_mem_shape {l : List CSeg} {s : CSeg} (h : s ∈ mergeAdjacent l) :
    ∃ u ∈ l, s.start = u.start ∧ s.video_id = u.video_id ∧ s.type = u.type := by
  cases l with
  | nil => simp [mergeAdjacent] at h
  | cons a rest => exact mergeRun_mem_shape rest a s h

theorem mergeAdjacent_vid_onto {l : List CSeg} {u : CSeg} (h : u ∈ l) :
    ∃ s ∈ mergeAdjacent l, s.video_id = u.video_id := by
  cases l with
  | nil => simp at h
  | cons a rest => exact mergeRun_vid_onto rest a u h

theorem mergeAdjacent_eq_self {l : List CSeg} (h : List.Chain' mergedSep l) :
    mergeAdjacent l = l := by
  cases l with
  | nil => rfl
  | cons a rest => exact mergeRun_eq_self rest a h

theorem covered_cons {a : CSeg} {l : List CSeg} {v : Option String} {x : ℚ} :
    covered (a :: l) v x ↔
      (a.video_id = v ∧ a.start ≤ x ∧ x ≤ a.«end») ∨ covered l v x := by
  unfold covered
  constructor
  · rintro ⟨s, hs, hp⟩
    rcases List.mem_cons.mp hs with rfl | hs'
    · exact Or.inl hp
    · exact Or.inr ⟨s, hs', hp⟩
  · rintro (hp | ⟨s, hs, hp⟩)
    · exact ⟨a, List.mem_cons_self _ _, hp⟩
    · exact ⟨s, List.mem_cons_of_mem _ hs, hp⟩

theorem covered_perm {l1 l2 : List CSeg} (h : l1.Perm l2) (v : Option String) (x : ℚ) :
    covered l1 v x ↔ covered l2 v x := by
  unfold covered
  constructor
  · rintro ⟨s, hs, hp⟩; exact ⟨s, h.mem_iff.mp hs, hp⟩
  · rintro ⟨s, hs, hp⟩; exact ⟨s, h.mem_iff.mpr hs, hp⟩

theorem mergeRun_covered : ∀ (ts : List CSeg) (cur : CSeg),
    List.Sorted leVid (cur :: ts) → ∀ (v : Option String) (x : ℚ),
      (covered (mergeRun cur ts) v x ↔ covered (cur :: ts) v x) := by
  intro ts
  induction ts with
  | nil => intro cur _ v x; rfl
  | cons t ts ih =>
    intro cur hs v x
    unfold mergeRun
    by_cases hc : t.video_id = cur.video_id ∧ t.start ≤ cur.«end»
    · rw [if_pos hc]
      have hstart : cur.start ≤ t.start := by
        have hrel : leVid cur t := (List.sorted_cons.mp hs).1 t (List.mem_cons_self _ _)
        unfold leVid at hrel
        have hkey : vidKey t = vidKey cur := by unfold vidKey; rw [hc.1]
        rcases hrel with hlt | ⟨_, hle⟩
        · rw [hkey] at hlt; exact absurd hlt (lt_irrefl _)
        · exact hle
      have hs2 : List.Sorted leVid ({ cur with «end» := max cur.«end» t.«end» } :: ts) := by
        apply List.sorted_cons.mpr
        refine ⟨fun y hy => ?_, (List.sorted_cons.mp hs).2.of_cons⟩
        exact (List.sorted_cons.mp hs).1 y (List.mem_cons_of_mem _ hy)
      rw [ih _ hs2 v x]
      rw [covered_cons, covered_cons, covered_cons]
      constructor
      · rintro (⟨hv, h1, h2⟩ | hrest)
        · by_cases hx : x ≤ cur.«end»
          · exact Or.inl ⟨hv, h1, hx⟩
          · refine Or.inr (Or.inl ⟨hc.1.trans hv, ?_, ?_⟩)
            · exact le_trans hc.2 (le_of_lt (not_le.mp hx))
            · rcases le_max_iff.mp h2 with h3 | h3
              · exact absurd h3 hx
              · exact h3
        · exact Or.inr (Or.inr hrest)
      · rintro (⟨hv, h1, h2⟩ | ⟨hv, h1, h2⟩ | hrest)
        · exact Or.inl ⟨hv, h1, le_trans h2 (le_max_left _ _)⟩
        · exact Or.inl ⟨hc.1.symm.trans hv, le_trans hstart h1,
            le_trans h2 (le_max_right _ _)⟩
        · exact Or.inr hrest
    · rw [if_neg hc]
      simp only [covered_cons]
      rw [ih t (List.sorted_cons.mp hs).2 v x]
      simp only [covered_cons]

theorem mergeAdjacent_covered {l : List CSeg} (h : List.Sorted leVid l)
    (v : Option String) (x : ℚ) : covered (mergeAdjacent l) v x ↔ covered l v x := by
  cases l with
  | nil => rfl
  | cons a rest => exact mergeRun_covered rest a h v x

theorem keepOnly_mem {l : List CSeg} {s : CSeg} :
    s ∈ keepOnly l ↔ ∃ u ∈ l, segType u = "keep" ∧
      s = { start := u.start, «end» := u.«end», type := some "keep",
            video_id := u.video_id } := by
  constructor
  · intro hs
    rcases List.mem_filterMap.mp hs with ⟨u, hu, hf⟩
    by_cases hk : segType u = "keep"
    · rw [if_pos hk] at hf
      exact ⟨u, hu, hk, (Option.some.inj hf).symm⟩
    · rw [if_neg hk] at hf
      cases hf
  · rintro ⟨u, hu, hk, rfl⟩
    exact List.mem_filterMap.mpr ⟨u, hu, by rw [if_pos hk]⟩

theorem covered_keepOnly {l : List CSeg} {v : Option String} {x : ℚ} :
    covered (keepOnly l) v x ↔
      ∃ u ∈ l, segType u = "keep" ∧ u.video_id = v ∧ u.start ≤ x ∧ x ≤ u.«end» := by
  unfold covered
  constructor
  · rintro ⟨s, hs, hv, h1, h2⟩
    rcases keepOnly_mem.mp hs with ⟨u, hu, hk, rfl⟩
    exact ⟨u, hu, hk, hv, h1, h2⟩
  · rintro ⟨u, hu, hk, hv, h1, h2⟩
    exact ⟨{ start := u.start, «end» := u.«end», type := some "keep", video_id := u.video_id },
      keepOnly_mem.mpr ⟨u, hu, hk, rfl⟩, hv, h1, h2⟩

theorem keepOnly_vid_none {l : List CSeg} (hv : ¬ hasVideoIds (keepOnly l) = true) :
    ∀ s ∈ keepOnly l, s.video_id = none := by
  intro s hs
  have h2 : ¬ s.video_id.isSome = true := by
    intro hc
    exact hv (List.any_eq_true.mpr ⟨s, hs, hc⟩)
  exact Option.not_isSome_iff_eq_none.mp h2

theorem pairwise_imp_of_none {l : List CSeg} (hn : ∀ s ∈ l, s.video_id = none)
    (h : List.Sorted leStart l) : List.Sorted leVid l := by
  refine h.imp_of_mem ?_
  intro a b ha hb hr
  right
  constructor
  · unfold vidKey
    rw [hn a ha, hn b hb]
  · exact hr

theorem pairwise_imp_to_leStart {l : List CSeg} (hn : ∀ s ∈ l, s.video_id = none)
    (h : List.Sorted leVid l) : List.Sorted leStart l := by
  refine h.imp_of_mem ?_
  intro a b ha hb hr
  rcases hr with hlt | ⟨_, hle⟩
  · have hk : vidKey a = vidKey b := by
      unfold vidKey
      rw [hn a ha, hn b hb]
    rw [hk] at hlt
    exact absurd hlt (lt_irrefl _)
  · exact hle

theorem convert_eq (l : List CSeg) :
    convert_llm_edl_to_editor_format l =
      mergeAdjacent (if hasVideoIds (keepOnly l) = true then
        List.insertionSort leVid (keepOnly l)
      else List.insertionSort leStart (keepOnly l)) := rfl

theorem convert_sorted (l : List CSeg) :
    List.Sorted leVid (convert_llm_edl_to_editor_format l) := by
  rw [convert_eq]
  by_cases hv : hasVideoIds (keepOnly l) = true
  · rw [if_pos hv]
    exact mergeAdjacent_sorted (List.sorted_insertionSort leVid _)
  · rw [if_neg hv]
    apply mergeAdjacent_sorted
    apply pairwise_imp_of_none
    · intro s hs
      exact keepOnly_vid_none hv s
        ((List.perm_insertionSort leStart _).mem_iff.mp hs)
    · exact List.sorted_insertionSort leStart _

theorem convert_chain (l : List CSeg) :
    List.Chain' mergedSep (convert_llm_edl_to_editor_format l) := by
  rw [convert_eq]
  exact mergeAdjacent_chain _

theorem convert_mem_shape {l : List CSeg} {s : CSeg}
    (h : s ∈ convert_llm_edl_to_editor_format l) :
    ∃ u ∈ keepOnly l, s.start = u.start ∧ s.video_id = u.video_id ∧ s.type = u.type := by
  rw [convert_eq] at h
  by_cases hv : hasVideoIds (keepOnly l) = true
  · rw [if_pos hv] at h
    rcases mergeAdjacent_mem_shape h with ⟨u, hu, h1, h2, h3⟩
    exact ⟨u, (List.perm_insertionSort leVid _).mem_iff.mp hu, h1, h2, h3⟩
  · rw [if_neg hv] at h
    rcases mergeAdjacent_mem_shape h with ⟨u, hu, h1, h2, h3⟩
    exact ⟨u, (List.perm_insertionSort leStart _).mem_iff.mp hu, h1, h2, h3⟩

theorem convert_types {l : List CSeg} {s : CSeg}
    (h : s ∈ convert_llm_edl_to_editor_format l) : s.type = some "keep" := by
  rcases convert_mem_shape h with ⟨u, hu, _, _, h3⟩
  rcases keepOnly_mem.mp hu with ⟨w, _, _, rfl⟩
  exact h3

theorem convert_covered (l : List CSeg) (v : Option String) (x : ℚ) :
    covered (convert_llm_edl_to_editor_format l) v x ↔
      ∃ u ∈ l, segType u = "keep" ∧ u.video_id = v ∧ u.start ≤ x ∧ x ≤ u.«end» := by
  rw [convert_eq]
  by_cases hv : hasVideoIds (keepOnly l) = true
  · rw [if_pos hv]
    rw [mergeAdjacent_covered (List.sorted_insertionSort leVid _) v x]
    rw [covered_perm (List.perm_insertionSort leVid _) v x]
    exact covered_keepOnly
  · rw [if_neg hv]
    rw [mergeAdjacent_covered (pairwise_imp_of_none
      (fun s hs => keepOnly_vid_none hv s
        ((List.perm_insertionSort leStart _).mem_iff.mp hs))
      (List.sorted_insertionSort leStart _)) v x]
    rw [covered_perm (List.perm_insertionSort leStart _) v x]
    exact covered_keepOnly

theorem filterMap_id_of_mem {l : List CSeg} {f : CSeg → Option CSeg}
    (h : ∀ a ∈ l, f a = some a) : l.filterMap f = l := by
  induction l with
  | nil => rfl
  | cons a rest ih =>
    rw [List.filterMap_cons, h a (List.mem_cons_self _ _)]
    rw [ih fun b hb => h b (List.mem_cons_of_mem _ hb)]

theorem keepOnly_of_all_keep {l : List CSeg} (h : ∀ s ∈ l, s.type = some "keep") :
    keepOnly l = l := by
  unfold keepOnly
  apply filterMap_id_of_mem
  intro a ha
  have ht := h a ha
  obtain ⟨st, en, ty, vid⟩ := a
  simp only at ht
  subst ht
  simp [segType]

/-- C10: the EDL converter is idempotent — converting its own output
returns the output unchanged, for every input EDL: the output consists
of `"keep"` segments only, is already sorted for the branch it falls
into, and no adjacent pair satisfies the merge condition. -/
theorem C10_convert_idempotent (l : List CSeg) :
    convert_llm_edl_to_editor_format (convert_llm_edl_to_editor_format l) =
      convert_llm_edl_to_editor_format l := by
  have hkeep : keepOnly (convert_llm_edl_to_editor_format l) =
      convert_llm_edl_to_editor_format l :=
    keepOnly_of_all_keep fun s hs => convert_types hs
  have hsorted := convert_sorted l
  have hchain := convert_chain l
  rw [convert_eq (convert_llm_edl_to_editor_format l)]
  rw [hkeep]
  by_cases hv : hasVideoIds (convert_llm_edl_to_editor_format l) = true
  · rw [if_pos hv]
    rw [hsorted.insertionSort_eq]
    exact mergeAdjacent_eq_self hchain
  · rw [if_neg hv]
    have hnone : ∀ s ∈ convert_llm_edl_to_editor_format l, s.video_id = none := by
      intro s hs
      have h2 : ¬ s.video_id.isSome = true := by
        intro hc
        exact hv (List.any_eq_true.mpr ⟨s, hs, hc⟩)
      exact Option.not_isSome_iff_eq_none.mp h2
    rw [(pairwise_imp_to_leStart hnone hsorted).insertionSort_eq]
    exact mergeAdjacent_eq_self hchain

theorem chain_imp_of_mem {R S : CSeg → CSeg → Prop} :
    ∀ l : List CSeg, (∀ a ∈ l, ∀ b ∈ l, R a b → S a b) → List.Chain' R l →
      List.Chain' S l := by
  intro l
  induction l with
  | nil => intro _ _; simp
  | cons a rest ih =>
    intro himp hc
    rcases List.chain'_cons'.mp hc with ⟨hhead, htail⟩
    apply List.chain'_cons'.mpr
    constructor
    · intro y hy
      exact himp a (List.mem_cons_self _ _) y
        (List.mem_cons_of_mem _ (List.mem_of_mem_head? hy)) (hhead y hy)
    · exact ih (fun p hp q hq => himp p (List.mem_cons_of_mem _ hp) q
        (List.mem_cons_of_mem _ hq)) htail

theorem video_id_eq_some_vidKey {s : CSeg} (h : s.video_id.isSome = true) :
    s.video_id = some (vidKey s) := by
  rcases hvid : s.video_id with _ | w
  · rw [hvid] at h; cases h
  · unfold vidKey
    rw [hvid]
    rfl

theorem vidKey_of_some {s : CSeg} {v : String} (h : s.video_id = some v) :
    vidKey s = v := by
  unfold vidKey
  rw [h]
  rfl

theorem chain_sep_filter (v : String) :
    ∀ l : List CSeg, List.Sorted leVid l → List.Chain' mergedSep l →
      (∀ s ∈ l, s.video_id.isSome = true) →
      List.Chain' (fun a b => a.«end» < b.start)
        (l.filter fun s => decide (s.video_id = some v)) := by
  intro l
  induction l with
  | nil => intro _ _ _; simp
  | cons a rest ih =>
    intro hs hc hall
    by_cases hav : a.video_id = some v
    · rw [List.filter_cons_of_pos (by simp [hav])]
      apply List.chain'_cons'.mpr
      constructor
      · intro y hy
        cases rest with
        | nil => simp at hy
        | cons c rest' =>
          by_cases hcv : c.video_id = some v
          · rw [List.filter_cons_of_pos (by simp [hcv])] at hy
            simp only [List.head?_cons, Option.mem_def, Option.some.injEq] at hy
            have hsep : mergedSep a c := (List.chain'_cons.mp hc).1
            unfold mergedSep at hsep
            have hveq : c.video_id = a.video_id := by rw [hcv, hav]
            rw [← hy]
            by_contra hle
            exact hsep ⟨hveq, not_lt.mp hle⟩
          · have hempty : (c :: rest').filter (fun s => decide (s.video_id = some v)) = [] := by
              rw [List.filter_cons_of_neg (by simp [hcv])]
              apply List.filter_eq_nil_iff.mpr
              intro u hu
              simp only [decide_eq_true_eq]
              intro huv
              have hrel1 : leVid a c :=
                (List.sorted_cons.mp hs).1 c (List.mem_cons_self _ _)
              have hrel2 : leVid c u :=
                (List.sorted_cons.mp (List.sorted_cons.mp hs).2).1 u hu
              have hka : vidKey a = v := vidKey_of_some hav
              have hku : vidKey u = v := vidKey_of_some huv
              have hkc : vidKey c = v := by
                unfold leVid at hrel1 hrel2
                rw [hka] at hrel1
                rw [hku] at hrel2
                rcases hrel1 with h1 | ⟨h1, _⟩ <;> rcases hrel2 with h2 | ⟨h2, _⟩
                · exact absurd (lt_trans h1 h2) (lt_irrefl _)
                · rw [h2] at h1; exact absurd h1 (lt_irrefl _)
                · rw [← h1] at h2; exact absurd h2 (lt_irrefl _)
                · exact h1.symm
              have hcsome := video_id_eq_some_vidKey
                (hall c (List.mem_cons_of_mem _ (List.mem_cons_self _ _)))
              rw [hkc] at hcsome
              exact hcv hcsome
            rw [hempty] at hy
            simp at hy
      · exact ih (List.sorted_cons.mp hs).2 hc.tail
          fun s hsm => hall s (List.mem_cons_of_mem _ hsm)
    · rw [List.filter_cons_of_neg (by simp [hav])]
      exact ih (List.sorted_cons.mp hs).2 hc.tail
        fun s hsm => hall s (List.mem_cons_of_mem _ hsm)

/-- C6 (counterexample): a keep segment with an empty-string `video_id`
sorts between two keep segments that have no `video_id` (both use the
sort key `""`), so after conversion the two no-`video_id` segments are
not adjacent, are never merged, and overlap: the per-source output is
not separated, refuting the claimed `prev.end < next.start`. -/
theorem C6_counterexample :
    ((convert_llm_edl_to_editor_format
          [{ start := 0, «end» := 10 }, { start := 1, «end» := 2, video_id := some "" },
            { start := 5, «end» := 20 }]).filter fun s => decide (s.video_id = none)) =
        [{ start := 0, «end» := 10, type := some "keep" },
          { start := 5, «end» := 20, type := some "keep" }] ∧
      ¬ ((10 : ℚ) < 5) := by
  constructor
  · norm_num [convert_llm_edl_to_editor_format, keepOnly, hasVideoIds, segType, vidKey,
      mergeAdjacent, mergeRun, List.insertionSort, List.orderedInsert, leVid, leStart,
      List.filter]
    simp
  · norm_num

/-- C6 (amended): for every input EDL in which either every keep segment
carries a `video_id` or none does, the converter's output consists
exactly of the keep segments: all output segments are typed `"keep"`,
the output is sorted by `(video_id, start)`, the output segments of any
one `video_id` are chained with `prev.end < next.start`, and the union
of output intervals per source equals the union of input keep intervals
for that source.  (Without the hypothesis, a keep segment with
`video_id = ""` can interleave between keep segments without `video_id`
and defeat the separation — see the counterexample; the other three
properties hold unconditionally.) -/
theorem C6_convert_characterization (l : List CSeg)
    (H : (∀ s ∈ l, segType s = "keep" → s.video_id.isSome = true) ∨
      (∀ s ∈ l, segType s = "keep" → s.video_id = none)) :
    (∀ s ∈ convert_llm_edl_to_editor_format l, s.type = some "keep") ∧
      List.Sorted leVid (convert_llm_edl_to_editor_format l) ∧
        (∀ v : Option String,
          List.Chain' (fun a b => a.«end» < b.start)
            ((convert_llm_edl_to_editor_format l).filter fun s =>
              decide (s.video_id = v))) ∧
          ∀ (v : Option String) (x : ℚ),
            covered (convert_llm_edl_to_editor_format l) v x ↔
              ∃ u ∈ l, segType u = "keep" ∧ u.video_id = v ∧ u.start ≤ x ∧ x ≤ u.«end» := by
  refine ⟨fun s hs => convert_types hs, convert_sorted l, ?_, convert_covered l⟩
  have hvids : ∀ s ∈ convert_llm_edl_to_editor_format l,
      ∃ w ∈ l, segType w = "keep" ∧ s.video_id = w.video_id := by
    intro s hs
    rcases convert_mem_shape hs with ⟨u, hu, _, h2, _⟩
    rcases keepOnly_mem.mp hu with ⟨w, hw, hk, rfl⟩
    exact ⟨w, hw, hk, h2⟩
  rcases H with hsome | hnone
  · have hall : ∀ s ∈ convert_llm_edl_to_editor_format l, s.video_id.isSome = true := by
      intro s hs
      rcases hvids s hs with ⟨w, hw, hk, heq⟩
      rw [heq]
      exact hsome w hw hk
    intro v
    cases v with
    | none =>
      have hempty : (convert_llm_edl_to_editor_format l).filter
          (fun s => decide (s.video_id = none)) = [] := by
        apply List.filter_eq_nil_iff.mpr
        intro s hs
        simp only [decide_eq_true_eq]
        intro hcontra
        have := hall s hs
        rw [hcontra] at this
        cases this
      rw [hempty]
      simp
    | some k => exact chain_sep_filter k _ (convert_sorted l) (convert_chain l) hall
  · have hall : ∀ s ∈ convert_llm_edl_to_editor_format l, s.video_id = none := by
      intro s hs
      rcases hvids s hs with ⟨w, hw, hk, heq⟩
      rw [heq]
      exact hnone w hw hk
    intro v
    cases v with
    | some k =>
      have hempty : (convert_llm_edl_to_editor_format l).filter
          (fun s => decide (s.video_id = some k)) = [] := by
        apply List.filter_eq_nil_iff.mpr
        intro s hs
        simp only [decide_eq_true_eq]
        intro hcontra
        rw [hall s hs] at hcontra
        cases hcontra
      rw [hempty]
      simp
    | none =>
      have hfull : (convert_llm_edl_to_editor_format l).filter
          (fun s => decide (s.video_id = none)) = convert_llm_edl_to_editor_format l := by
        apply List.filter_eq_self.mpr
        intro s hs
        simp [hall s hs]
      rw [hfull]
      refine chain_imp_of_mem _ ?_ (convert_chain l)
      intro a ha b hb hr
      unfold mergedSep at hr
      have hveq : b.video_id = a.video_id := by rw [hall a ha, hall b hb]
      by_contra hle
      exact hr ⟨hveq, not_lt.mp hle⟩

/-- C6 (witness). -/
theorem C6_convert_characterization_witness :
    List.Chain' (fun a b => a.«end» < b.start)
      ((convert_llm_edl_to_editor_format
          [{ start := 0, «end» := 5, type := some "keep", video_id := some "a" },
            { start := 4, «end» := 9, video_id := some "a" },
            { start := 1, «end» := 2, type := some "skip", video_id := some "b" }]).filter
        fun s => decide (s.video_id = some "a")) :=
  (C6_convert_characterization
    [{ start := 0, «end» := 5, type := some "keep", video_id := some "a" },
      { start := 4, «end» := 9, video_id := some "a" },
      { start := 1, «end» := 2, type := some "skip", video_id := some "b" }]
    (Or.inl (by decide))).2.2.1 (some "a")

/-- C5 (witness). -/
theorem C5_repair_balances_witness :
    (repair_json "\x7b\"a\": 2").toList.count lbrace =
        (repair_json "\x7b\"a\": 2").toList.count rbrace ∧
      (repair_json "\x7b\"a\": 2").toList.count '[' =
        (repair_json "\x7b\"a\": 2").toList.count ']' :=
  C5_repair_balances.1 "\x7b\"a\": 2" (by decide) (by decide)

end VideoEdit
